import Mathlib

/-!
Shallow embedding of the HubMap tiling core: the sliding-window planner
(`InferenceDataset.get_positions`), the tile weighting kernel
(`get_tile_weighting`), the weighted reconstruction accumulator
(`predict_entire_mask_downscaled` / `predict_entire_mask`), the fold
partitioning (`InMemoryTrainDataset.update_fold_nb`), the tile acceptance
policy (`InMemoryTrainDataset.accept_tile_policy`) and the training tile
proposal (`InMemoryTrainDataset.__getitem__`).

Machine floats are modelled by exact rationals; a non-finite float result
(NaN or infinity, as produced by dividing by a zero accumulator weight)
is modelled by `Option.none`.
-/

/-- A half-open tile rectangle `[x0, x1) × [y0, y1)` in image pixel
coordinates, as produced by `InferenceDataset.get_positions`. -/
structure Rect where
  x0 : ℤ
  x1 : ℤ
  y0 : ℤ
  y1 : ℤ
deriving DecidableEq

/-- The sliding-window step `int(self.tile_size / self.overlap_factor)`
(Python `int` truncation of a quotient of positive integers is floor
division). -/
def stepOf (tileSize overlap : ℕ) : ℕ := tileSize / overlap

/-- `np.arange(0, stop, step)` for a positive `step`: the multiples of
`step` that are strictly below `stop`. -/
def arange (stop step : ℕ) : List ℕ :=
  (List.range ((stop + step - 1) / step)).map (fun k => k * step)

/-- One axis of `InferenceDataset.get_positions`: `right_space = dim -
(c + tile_size)`; if it is positive the window starts at `c`, otherwise
the window is shifted back so that its far edge touches `dim`. -/
def boundsOf (dim tileSize c : ℤ) : ℤ × ℤ :=
  let rightSpace := dim - (c + tileSize)
  if 0 < rightSpace then (c, c + tileSize)
  else (c + rightSpace, c + rightSpace + tileSize)

/-- The x-major, y-minor list of window rectangles built by the double
loop of `InferenceDataset.get_positions`, for a given positive step. -/
def getPositionsList (h w tileSize step : ℕ) : List Rect :=
  (arange h step).flatMap (fun (x : ℕ) =>
    (arange w step).map (fun (y : ℕ) =>
      { x0 := (boundsOf (h : ℤ) (tileSize : ℤ) (x : ℤ)).1
        x1 := (boundsOf (h : ℤ) (tileSize : ℤ) (x : ℤ)).2
        y0 := (boundsOf (w : ℤ) (tileSize : ℤ) (y : ℤ)).1
        y1 := (boundsOf (w : ℤ) (tileSize : ℤ) (y : ℤ)).2 }))

/-- `InferenceDataset.get_positions`. When the step
`int(tile_size / overlap_factor)` is zero, `np.arange` raises
(ZeroDivisionError), modelled here by `none`. -/
def getPositions (h w tileSize overlap : ℕ) : Option (List Rect) :=
  if stepOf tileSize overlap = 0 then none
  else some (getPositionsList h w tileSize (stepOf tileSize overlap))

/-- One pixel of the finalize loop of `predict_entire_mask_downscaled`
(and `predict_entire_mask`): `global_pred[i] = torch.div(global_pred[i],
global_counter[i])`.  The division has no epsilon floor; dividing by a
zero weight produces a non-finite float (`0/0` is NaN), modelled by
`none`. -/
def finalizePixel (s w : ℚ) : Option ℚ :=
  if w = 0 then none else some (s / w)

/-! ### Planner lemmas -/

theorem mem_arange_iff {stop step x : ℕ} (hstep : 0 < step) :
    x ∈ arange stop step ↔ ∃ k, x = k * step ∧ k * step < stop := by
  simp only [arange, List.mem_map, List.mem_range]
  constructor
  · rintro ⟨k, hk, rfl⟩
    refine ⟨k, rfl, ?_⟩
    have h2 : (k + 1) * step ≤ stop + step - 1 :=
      (Nat.le_div_iff_mul_le hstep).mp hk
    rw [add_one_mul] at h2
    omega
  · rintro ⟨k, rfl, hlt⟩
    refine ⟨k, ?_, rfl⟩
    have h2 : (k + 1) * step ≤ stop + step - 1 := by
      rw [add_one_mul]; omega
    exact (Nat.le_div_iff_mul_le hstep).mpr h2

theorem boundsOf_spec {d T c : ℤ} (hT : 1 ≤ T) (hTd : T ≤ d) (hc : 0 ≤ c)
    (hcd : c < d) :
    0 ≤ (boundsOf d T c).1 ∧ (boundsOf d T c).1 < (boundsOf d T c).2 ∧
      (boundsOf d T c).2 ≤ d ∧ (boundsOf d T c).2 - (boundsOf d T c).1 = T := by
  simp only [boundsOf]
  split_ifs with hsp <;> refine ⟨?_, ?_, ?_, ?_⟩ <;> omega

theorem boundsOf_covers {d T step p : ℕ} (hstep : 0 < step) (hsT : step ≤ T)
    (hp : p < d) :
    (boundsOf (d : ℤ) (T : ℤ) ((p / step * step : ℕ) : ℤ)).1 ≤ (p : ℤ) ∧
      (p : ℤ) < (boundsOf (d : ℤ) (T : ℤ) ((p / step * step : ℕ) : ℤ)).2 := by
  have h1 : step * (p / step) + p % step = p := Nat.div_add_mod p step
  have h2 : p % step < step := Nat.mod_lt p hstep
  have h3 : p / step * step = step * (p / step) := Nat.mul_comm _ _
  simp only [boundsOf]
  split_ifs with hsp <;> omega

theorem mem_getPositionsList {h w T step : ℕ} {r : Rect} :
    r ∈ getPositionsList h w T step ↔
      ∃ x : ℕ, x ∈ arange h step ∧ ∃ y : ℕ, y ∈ arange w step ∧
        r = { x0 := (boundsOf (h : ℤ) (T : ℤ) (x : ℤ)).1
              x1 := (boundsOf (h : ℤ) (T : ℤ) (x : ℤ)).2
              y0 := (boundsOf (w : ℤ) (T : ℤ) (y : ℤ)).1
              y1 := (boundsOf (w : ℤ) (T : ℤ) (y : ℤ)).2 } := by
  simp only [getPositionsList, List.mem_flatMap, List.mem_map]
  constructor
  · rintro ⟨x, hx, y, hy, rfl⟩
    exact ⟨x, hx, y, hy, rfl⟩
  · rintro ⟨x, hx, y, hy, rfl⟩
    exact ⟨x, hx, y, hy, rfl⟩

theorem positions_bounds {h w T ov : ℕ} {P : List Rect}
    (hT : 1 ≤ T) (hh : T ≤ h) (hw : T ≤ w)
    (hP : getPositions h w T ov = some P) :
    ∀ r ∈ P, 0 ≤ r.x0 ∧ r.x0 < r.x1 ∧ r.x1 ≤ (h : ℤ) ∧
      0 ≤ r.y0 ∧ r.y0 < r.y1 ∧ r.y1 ≤ (w : ℤ) ∧
      r.x1 - r.x0 = (T : ℤ) ∧ r.y1 - r.y0 = (T : ℤ) := by
  simp only [getPositions] at hP
  split_ifs at hP with hz
  have hstep : 0 < stepOf T ov := Nat.pos_of_ne_zero hz
  obtain rfl : getPositionsList h w T (stepOf T ov) = P := by
    injection hP
  intro r hr
  obtain ⟨x, hx, y, hy, rfl⟩ := mem_getPositionsList.mp hr
  obtain ⟨kx, rfl, hkx⟩ := (mem_arange_iff hstep).mp hx
  obtain ⟨ky, rfl, hky⟩ := (mem_arange_iff hstep).mp hy
  have hbx := boundsOf_spec (d := (h : ℤ)) (T := (T : ℤ))
    (c := ((kx * stepOf T ov : ℕ) : ℤ))
    (by exact_mod_cast hT) (by exact_mod_cast hh)
    (by exact_mod_cast Nat.zero_le _) (by exact_mod_cast hkx)
  have hby := boundsOf_spec (d := (w : ℤ)) (T := (T : ℤ))
    (c := ((ky * stepOf T ov : ℕ) : ℤ))
    (by exact_mod_cast hT) (by exact_mod_cast hw)
    (by exact_mod_cast Nat.zero_le _) (by exact_mod_cast hky)
  exact ⟨hbx.1, hbx.2.1, hbx.2.2.1, hby.1, hby.2.1, hby.2.2.1,
    hbx.2.2.2, hby.2.2.2⟩

theorem positions_cover {h w T ov : ℕ} {P : List Rect}
    (hP : getPositions h w T ov = some P) :
    ∀ p q : ℕ, p < h → q < w →
      ∃ r ∈ P, r.x0 ≤ (p : ℤ) ∧ (p : ℤ) < r.x1 ∧
        r.y0 ≤ (q : ℤ) ∧ (q : ℤ) < r.y1 := by
  simp only [getPositions] at hP
  split_ifs at hP with hz
  have hstep : 0 < stepOf T ov := Nat.pos_of_ne_zero hz
  have hsT : stepOf T ov ≤ T := Nat.div_le_self T ov
  obtain rfl : getPositionsList h w T (stepOf T ov) = P := by
    injection hP
  intro p q hp hq
  refine ⟨_, mem_getPositionsList.mpr
    ⟨p / stepOf T ov * stepOf T ov,
      (mem_arange_iff hstep).mpr ⟨p / stepOf T ov, rfl, ?_⟩,
      q / stepOf T ov * stepOf T ov,
      (mem_arange_iff hstep).mpr ⟨q / stepOf T ov, rfl, ?_⟩, rfl⟩, ?_⟩
  · exact lt_of_le_of_lt (Nat.div_mul_le_self p _) hp
  · exact lt_of_le_of_lt (Nat.div_mul_le_self q _) hq
  · have hcx := boundsOf_covers (d := h) (T := T) hstep hsT hp
    have hcy := boundsOf_covers (d := w) (T := T) hstep hsT hq
    exact ⟨hcx.1, hcx.2, hcy.1, hcy.2⟩

/-! ### Claims about the planner and the finalize division -/

/-- C2 (counterexample): with height = width = 10, tile_size = 1 and
overlap_factor = 2 — all satisfying the claim's hypotheses — the step
`int(1/2)` is 0, `np.arange` raises, and the planner yields no
rectangles, so no covering family exists. -/
theorem C2_counterexample :
    ¬ ∃ P, getPositions 10 10 1 2 = some P ∧
        ∀ p q : ℕ, p < 10 → q < 10 →
          ∃ r ∈ P, r.x0 ≤ (p : ℤ) ∧ (p : ℤ) < r.x1 ∧
            r.y0 ≤ (q : ℤ) ∧ (q : ℤ) < r.y1 := by
  rintro ⟨P, hP, -⟩
  simp [getPositions, stepOf] at hP

/-- C2 (amended): whenever additionally `overlap_factor ≤ tile_size`
(so that the step `int(tile_size/overlap_factor)` is nonzero), the
sliding-window planner succeeds, every rectangle is a `tile_size`-sided
square inside `[0, h) × [0, w)`, and the rectangles cover every pixel. -/
theorem C2_sliding_window_cover (h w T ov : ℕ) (hT : 1 ≤ T) (hov : 1 ≤ ov)
    (hovT : ov ≤ T) (hh : T ≤ h) (hw : T ≤ w) :
    ∃ P, getPositions h w T ov = some P ∧
      (∀ r ∈ P, 0 ≤ r.x0 ∧ r.x0 < r.x1 ∧ r.x1 ≤ (h : ℤ) ∧
        0 ≤ r.y0 ∧ r.y0 < r.y1 ∧ r.y1 ≤ (w : ℤ) ∧
        r.x1 - r.x0 = (T : ℤ) ∧ r.y1 - r.y0 = (T : ℤ)) ∧
      (∀ p q : ℕ, p < h → q < w →
        ∃ r ∈ P, r.x0 ≤ (p : ℤ) ∧ (p : ℤ) < r.x1 ∧
          r.y0 ≤ (q : ℤ) ∧ (q : ℤ) < r.y1) := by
  have hz : stepOf T ov ≠ 0 := by
    have h1 : 1 ≤ T / ov := (Nat.one_le_div_iff (by omega)).mpr hovT
    simp only [stepOf]
    omega
  refine ⟨getPositionsList h w T (stepOf T ov), ?_, ?_, ?_⟩
  · simp [getPositions, hz]
  · exact @positions_bounds h w T ov _ hT hh hw (by simp [getPositions, hz])
  · exact @positions_cover h w T ov _ (by simp [getPositions, hz])

/-- Witness for C2's amended theorem at h = 5, w = 4, tile_size = 3,
overlap_factor = 2. -/
theorem C2_sliding_window_cover_witness :
    ((1 : ℕ) ≤ 3 ∧ (1 : ℕ) ≤ 2 ∧ (2 : ℕ) ≤ 3 ∧ (3 : ℕ) ≤ 5 ∧ (3 : ℕ) ≤ 4) ∧
    ∃ P, getPositions 5 4 3 2 = some P ∧
      (∀ r ∈ P, 0 ≤ r.x0 ∧ r.x0 < r.x1 ∧ r.x1 ≤ (5 : ℤ) ∧
        0 ≤ r.y0 ∧ r.y0 < r.y1 ∧ r.y1 ≤ (4 : ℤ) ∧
        r.x1 - r.x0 = (3 : ℤ) ∧ r.y1 - r.y0 = (3 : ℤ)) ∧
      (∀ p q : ℕ, p < 5 → q < 4 →
        ∃ r ∈ P, r.x0 ≤ (p : ℤ) ∧ (p : ℤ) < r.x1 ∧
          r.y0 ≤ (q : ℤ) ∧ (q : ℤ) < r.y1) :=
  ⟨by decide, C2_sliding_window_cover 5 4 3 2 (by decide) (by decide)
    (by decide) (by decide) (by decide)⟩

/-- C10: for a 1000×1000 image with tile_size 256 and overlap_factor 2,
the clamped corner rectangle `[744,1000) × [744,1000)` occurs four times
in the planner output (the two x-starts 768 and 896 both clamp to
`(744, 1000)`, and likewise along y), so its pixels receive the tile
kernel's weight multiple times in the accumulator. -/
theorem C10_duplicate_clamped_rect :
    (getPositions 1000 1000 256 2).map
        (fun P => P.count { x0 := 744, x1 := 1000, y0 := 744, y1 := 1000 })
      = some 4 ∧
    boundsOf 1000 256 768 = (744, 1000) ∧
    boundsOf 1000 256 896 = (744, 1000) := by
  decide

/-- C1 (counterexample): a pixel with `weight_total = 0` does not get
probability 0: the finalize division `sum / weight_total` has no epsilon
floor, so `0 / 0` is NaN (modelled `none`). -/
theorem C1_counterexample :
    finalizePixel 0 0 = none ∧ finalizePixel 0 0 ≠ some 0 := by
  decide

/-- C1 (amended): the finalize step divides `sum` by `weight_total`
directly, with no epsilon floor: at every pixel with a nonzero
accumulated weight the result is `sum / weight_total`, and at a pixel
with `weight_total = 0` the result is non-finite (NaN), not 0. -/
theorem C1_finalize_plain_division (s w : ℚ) :
    (w ≠ 0 → finalizePixel s w = some (s / w)) ∧ finalizePixel s 0 = none := by
  constructor
  · intro hw
    simp [finalizePixel, hw]
  · simp [finalizePixel]

/-- Witness for C1's amended theorem at sum = 3, weight = 2. -/
theorem C1_finalize_plain_division_witness :
    (2 : ℚ) ≠ 0 ∧ finalizePixel 3 2 = some (3 / 2) :=
  ⟨by norm_num, (C1_finalize_plain_division 3 2).1 (by norm_num)⟩

/-! ### The tile weighting kernel `get_tile_weighting` -/

/-- The 1-D distance-to-border profile of `get_tile_weighting`: entry `i`
of `half + 1 - np.abs(x)` over the concatenated `np.mgrid` ranges
`[-half, 0)` and `[1, half+1)`, which for an even `size = 2*half` equals
`min(i+1, size-i)`. -/
def borderDist (size i : ℕ) : ℕ := min (i + 1) (size - i)

/-- `w = np.minimum(x, y)`: the pyramidal distance-to-border field. -/
def rawW (size i j : ℕ) : ℕ := min (borderDist size i) (borderDist size j)

/-- `rawW` as a rational (numpy computes in float32). -/
def rawWQ (size i j : ℕ) : ℚ := (rawW size i j : ℚ)

/-- All entries of a `size × size` grid, row-major. -/
def gridList (size : ℕ) (f : ℕ → ℕ → ℚ) : List ℚ :=
  (List.range size).flatMap (fun (i : ℕ) => (List.range size).map (f i))

/-- `np.max` of a nonempty array given as a list. -/
def listMax : List ℚ → ℚ
  | [] => 0
  | a :: t => t.foldl max a

/-- `np.min` of a nonempty array given as a list. -/
def listMin : List ℚ → ℚ
  | [] => 0
  | a :: t => t.foldl min a

/-- `w = (w / w.max()) ** sigma`. -/
def wNorm (size sigma i j : ℕ) : ℚ :=
  (rawWQ size i j / listMax (gridList size (rawWQ size))) ^ sigma

/-- `w = np.minimum(w, 1)`. -/
def wClip1 (size sigma i j : ℕ) : ℚ := min (wNorm size sigma i j) 1

/-- `np.min(w)` after the clip at 1. -/
def wLo (size sigma : ℕ) : ℚ := listMin (gridList size (wClip1 size sigma))

/-- `np.max(w)` after the clip at 1. -/
def wHi (size sigma : ℕ) : ℚ := listMax (gridList size (wClip1 size sigma))

/-- `w = (w - np.min(w) + eps) / (np.max(w) - np.min(w) + eps)`: the
kernel value just before the alpha-plateau rescale (`np.where`). -/
def wRescaled (size sigma : ℕ) (eps : ℚ) (i j : ℕ) : ℚ :=
  (wClip1 size sigma i j - wLo size sigma + eps) /
    (wHi size sigma - wLo size sigma + eps)

/-- `w = np.where(w > alpha, 1, w)` followed by `w = w / alpha`. -/
def wPlateau (size sigma : ℕ) (alpha eps : ℚ) (i j : ℕ) : ℚ :=
  (if alpha < wRescaled size sigma eps i j then 1
   else wRescaled size sigma eps i j) / alpha

/-- `w = np.clip(w, 1e-3, 1)`. -/
def wClipped (size sigma : ℕ) (alpha eps : ℚ) (i j : ℕ) : ℚ :=
  max (1 / 1000) (min (wPlateau size sigma alpha eps i j) 1)

/-- Round to the nearest integer, ties to even, as `np.round` does. -/
def roundHalfEven (q : ℚ) : ℤ :=
  if q - ⌊q⌋ = 1 / 2 then (if Even ⌊q⌋ then ⌊q⌋ else ⌊q⌋ + 1)
  else round q

/-- `get_tile_weighting(size, sigma, alpha, eps)`: the kernel entry at
`(i, j)` after `np.round(w, 3)` (the final float16 cast is not
modelled; every produced multiple of 1/1000 is treated exactly). -/
def tileWeightFull (size sigma : ℕ) (alpha eps : ℚ) (i j : ℕ) : ℚ :=
  (roundHalfEven (wClipped size sigma alpha eps i j * 1000) : ℚ) / 1000

/-- The kernel as invoked by `predict_entire_mask_downscaled` and
`predict_entire_mask`: `get_tile_weighting(tile_size, sigma=1, alpha=1)`
with the default `eps = 1e-6`. -/
def tileWeight (size i j : ℕ) : ℚ := tileWeightFull size 1 1 (1 / 1000000) i j

/-! ### Kernel lemmas and claim C4 -/

theorem foldl_max_le_iff {t : List ℚ} {a b : ℚ} :
    t.foldl max a ≤ b ↔ a ≤ b ∧ ∀ x ∈ t, x ≤ b := by
  induction t generalizing a with
  | nil => simp
  | cons c t ih => simp [List.foldl_cons, ih, max_le_iff, and_assoc]

theorem le_foldl_min_iff {t : List ℚ} {a b : ℚ} :
    b ≤ t.foldl min a ↔ b ≤ a ∧ ∀ x ∈ t, b ≤ x := by
  induction t generalizing a with
  | nil => simp
  | cons c t ih => simp [List.foldl_cons, ih, le_min_iff, and_assoc]

theorem listMax_le_iff {l : List ℚ} {b : ℚ} (hl : l ≠ []) :
    listMax l ≤ b ↔ ∀ x ∈ l, x ≤ b := by
  cases l with
  | nil => simp at hl
  | cons a t => simp [listMax, foldl_max_le_iff, List.forall_mem_cons]

theorem le_listMin_iff {l : List ℚ} {b : ℚ} (hl : l ≠ []) :
    b ≤ listMin l ↔ ∀ x ∈ l, b ≤ x := by
  cases l with
  | nil => simp at hl
  | cons a t => simp [listMin, le_foldl_min_iff, List.forall_mem_cons]

theorem le_listMax {l : List ℚ} {x : ℚ} (hx : x ∈ l) : x ≤ listMax l := by
  cases l with
  | nil => simp at hx
  | cons a t =>
    have h := (foldl_max_le_iff (t := t) (a := a) (b := t.foldl max a)).mp le_rfl
    rcases List.mem_cons.mp hx with rfl | hx2
    · exact h.1
    · exact h.2 x hx2

theorem listMin_le {l : List ℚ} {x : ℚ} (hx : x ∈ l) : listMin l ≤ x := by
  cases l with
  | nil => simp at hx
  | cons a t =>
    have h := (le_foldl_min_iff (t := t) (a := a) (b := t.foldl min a)).mp le_rfl
    rcases List.mem_cons.mp hx with rfl | hx2
    · exact h.1
    · exact h.2 x hx2

theorem listMax_eq {l : List ℚ} {b : ℚ} (hb : b ∈ l) (hub : ∀ x ∈ l, x ≤ b) :
    listMax l = b :=
  le_antisymm ((listMax_le_iff (List.ne_nil_of_mem hb)).mpr hub) (le_listMax hb)

theorem listMin_eq {l : List ℚ} {b : ℚ} (hb : b ∈ l) (hlb : ∀ x ∈ l, b ≤ x) :
    listMin l = b :=
  le_antisymm (listMin_le hb) ((le_listMin_iff (List.ne_nil_of_mem hb)).mpr hlb)

theorem mem_gridList {size : ℕ} {f : ℕ → ℕ → ℚ} {i j : ℕ}
    (hi : i < size) (hj : j < size) : f i j ∈ gridList size f := by
  simp only [gridList, List.mem_flatMap, List.mem_map, List.mem_range]
  exact ⟨i, hi, j, hj, rfl⟩

theorem of_mem_gridList {size : ℕ} {f : ℕ → ℕ → ℚ} {q : ℚ}
    (hq : q ∈ gridList size f) : ∃ i, i < size ∧ ∃ j, j < size ∧ f i j = q := by
  simpa only [gridList, List.mem_flatMap, List.mem_map, List.mem_range] using hq

theorem borderDist_le_half {size half i : ℕ} (hs : size = 2 * half)
    (hi : i < size) : borderDist size i ≤ half := by
  unfold borderDist
  omega

theorem one_le_borderDist {size i : ℕ} (hi : i < size) :
    1 ≤ borderDist size i := by
  unfold borderDist
  omega

theorem borderDist_eq_half_iff {size half i : ℕ} (hs : size = 2 * half)
    (hh : 1 ≤ half) (hi : i < size) :
    borderDist size i = half ↔ i = half - 1 ∨ i = half := by
  unfold borderDist
  omega

theorem rawW_le_half {size half i j : ℕ} (hs : size = 2 * half)
    (hi : i < size) (_hj : j < size) : rawW size i j ≤ half := by
  have h1 := borderDist_le_half hs hi
  unfold rawW
  omega

theorem one_le_rawW {size i j : ℕ} (hi : i < size) (hj : j < size) :
    1 ≤ rawW size i j := by
  have h1 := one_le_borderDist hi
  have h2 := one_le_borderDist hj
  unfold rawW
  omega

theorem rawW_eq_half_iff {size half i j : ℕ} (hs : size = 2 * half)
    (hh : 1 ≤ half) (hi : i < size) (hj : j < size) :
    rawW size i j = half ↔
      (i = half - 1 ∨ i = half) ∧ (j = half - 1 ∨ j = half) := by
  rw [← borderDist_eq_half_iff hs hh hi, ← borderDist_eq_half_iff hs hh hj]
  have h1 := borderDist_le_half hs hi
  have h2 := borderDist_le_half hs hj
  unfold rawW
  omega

theorem rawW_center {size half : ℕ} (hs : size = 2 * half) (hh : 1 ≤ half) :
    rawW size half half = half := by
  unfold rawW borderDist
  omega

theorem rawW_one {size : ℕ} (h2 : 1 ≤ size) : rawW size 0 0 = 1 := by
  unfold rawW borderDist
  omega

theorem rawMax_eq {size half : ℕ} (hs : size = 2 * half) (hh : 1 ≤ half) :
    listMax (gridList size (rawWQ size)) = (half : ℚ) := by
  apply listMax_eq
  · have hmem := mem_gridList (f := rawWQ size)
      (show half < size by omega) (show half < size by omega)
    rwa [show rawWQ size half half = (half : ℚ) by
      unfold rawWQ; rw [rawW_center hs hh]] at hmem
  · intro x hx
    obtain ⟨i, hi, j, hj, rfl⟩ := of_mem_gridList hx
    unfold rawWQ
    exact_mod_cast rawW_le_half hs hi hj

theorem half_pos_q {half : ℕ} (hh : 1 ≤ half) : (0 : ℚ) < (half : ℚ) := by
  exact_mod_cast hh

theorem wClip1_eq {size half i j : ℕ} (hs : size = 2 * half) (hh : 1 ≤ half)
    (hi : i < size) (hj : j < size) :
    wClip1 size 1 i j = (rawW size i j : ℚ) / (half : ℚ) := by
  unfold wClip1 wNorm
  rw [rawMax_eq hs hh, pow_one]
  apply min_eq_left
  rw [div_le_one (half_pos_q hh)]
  unfold rawWQ
  exact_mod_cast rawW_le_half hs hi hj

theorem wLo_eq {size half : ℕ} (hs : size = 2 * half) (hh : 1 ≤ half) :
    wLo size 1 = 1 / (half : ℚ) := by
  unfold wLo
  apply listMin_eq
  · have h0 : (0 : ℕ) < size := by omega
    have hmem := mem_gridList (f := wClip1 size 1) h0 h0
    rwa [wClip1_eq hs hh h0 h0, rawW_one (by omega), Nat.cast_one] at hmem
  · intro x hx
    obtain ⟨i, hi, j, hj, rfl⟩ := of_mem_gridList hx
    rw [wClip1_eq hs hh hi hj]
    exact div_le_div_of_nonneg_right
      (by exact_mod_cast one_le_rawW hi hj) (le_of_lt (half_pos_q hh))

theorem wHi_eq {size half : ℕ} (hs : size = 2 * half) (hh : 1 ≤ half) :
    wHi size 1 = 1 := by
  unfold wHi
  apply listMax_eq
  · have hc : half < size := by omega
    have hmem := mem_gridList (f := wClip1 size 1) hc hc
    rwa [wClip1_eq hs hh hc hc, rawW_center hs hh,
      div_self (ne_of_gt (half_pos_q hh))] at hmem
  · intro x hx
    obtain ⟨i, hi, j, hj, rfl⟩ := of_mem_gridList hx
    rw [wClip1_eq hs hh hi hj, div_le_one (half_pos_q hh)]
    exact_mod_cast rawW_le_half hs hi hj

theorem wRescaled_eq {size half i j : ℕ} (hs : size = 2 * half) (hh : 1 ≤ half)
    (hi : i < size) (hj : j < size) (eps : ℚ) :
    wRescaled size 1 eps i j =
      ((rawW size i j : ℚ) / (half : ℚ) - 1 / (half : ℚ) + eps) /
        (1 - 1 / (half : ℚ) + eps) := by
  unfold wRescaled
  rw [wClip1_eq hs hh hi hj, wLo_eq hs hh, wHi_eq hs hh]

theorem rescale_den_pos {half : ℕ} (hh : 1 ≤ half) {eps : ℚ} (heps : 0 < eps) :
    0 < 1 - 1 / (half : ℚ) + eps := by
  have h1 : 1 / (half : ℚ) ≤ 1 := by
    rw [div_le_one (half_pos_q hh)]
    exact_mod_cast hh
  linarith

theorem wRescaled_le_one {size half i j : ℕ} (hs : size = 2 * half)
    (hh : 1 ≤ half) (hi : i < size) (hj : j < size)
    {eps : ℚ} (heps : 0 < eps) :
    wRescaled size 1 eps i j ≤ 1 := by
  rw [wRescaled_eq hs hh hi hj, div_le_one (rescale_den_pos hh heps)]
  have h1 : (rawW size i j : ℚ) / (half : ℚ) ≤ 1 := by
    rw [div_le_one (half_pos_q hh)]
    exact_mod_cast rawW_le_half hs hi hj
  linarith

theorem wRescaled_eq_one_iff {size half i j : ℕ} (hs : size = 2 * half)
    (hh : 1 ≤ half) (hi : i < size) (hj : j < size)
    {eps : ℚ} (heps : 0 < eps) :
    wRescaled size 1 eps i j = 1 ↔ rawW size i j = half := by
  rw [wRescaled_eq hs hh hi hj,
    div_eq_one_iff_eq (ne_of_gt (rescale_den_pos hh heps))]
  constructor
  · intro hnum
    have h2 : (rawW size i j : ℚ) / (half : ℚ) = 1 := by linarith
    rw [div_eq_one_iff_eq (ne_of_gt (half_pos_q hh))] at h2
    exact_mod_cast h2
  · intro hr
    have h2 : (rawW size i j : ℚ) = (half : ℚ) := by exact_mod_cast hr
    rw [h2, div_self (ne_of_gt (half_pos_q hh))]

theorem roundHalfEven_bounds {m M : ℤ} {q : ℚ} (h1 : (m : ℚ) ≤ q)
    (h2 : q ≤ (M : ℚ)) : m ≤ roundHalfEven q ∧ roundHalfEven q ≤ M := by
  have hfl : m ≤ ⌊q⌋ := Int.le_floor.mpr h1
  have hfu : ⌊q⌋ ≤ M := by
    have := Int.floor_le_floor h2
    rwa [Int.floor_intCast] at this
  unfold roundHalfEven
  split_ifs with htie hev
  · exact ⟨hfl, hfu⟩
  · refine ⟨by omega, ?_⟩
    have hq : q = (⌊q⌋ : ℚ) + 1 / 2 := by linarith
    have h3 : (⌊q⌋ : ℚ) + 1 / 2 ≤ (M : ℚ) := by rw [← hq]; exact h2
    have h4 : (⌊q⌋ : ℚ) < (M : ℚ) := by linarith
    have h5 : ⌊q⌋ < M := by exact_mod_cast h4
    omega
  · rw [round_eq]
    constructor
    · apply Int.le_floor.mpr
      linarith
    · have h3 : q + 1 / 2 < (M : ℚ) + 1 := by linarith
      have h4 : ⌊q + 1 / 2⌋ < M + 1 := by
        apply Int.floor_lt.mpr
        push_cast
        linarith
      omega

theorem tileWeightFull_bounds (size sigma : ℕ) (alpha eps : ℚ) (i j : ℕ) :
    1 / 1000 ≤ tileWeightFull size sigma alpha eps i j ∧
      tileWeightFull size sigma alpha eps i j ≤ 1 := by
  have hlo : (1 : ℚ) / 1000 ≤ wClipped size sigma alpha eps i j :=
    le_max_left _ _
  have hhi : wClipped size sigma alpha eps i j ≤ 1 :=
    max_le (by norm_num) (min_le_right _ _)
  have hb := roundHalfEven_bounds (m := 1) (M := 1000)
    (q := wClipped size sigma alpha eps i j * 1000)
    (by push_cast; linarith) (by push_cast; linarith)
  have hb1 : (1 : ℚ) ≤ (roundHalfEven (wClipped size sigma alpha eps i j * 1000) : ℚ) := by
    exact_mod_cast hb.1
  have hb2 : ((roundHalfEven (wClipped size sigma alpha eps i j * 1000) : ℤ) : ℚ) ≤ 1000 := by
    exact_mod_cast hb.2
  unfold tileWeightFull
  constructor <;> [linarith; linarith]

theorem borderDist_flip {size i : ℕ} (hi : i < size) :
    borderDist size (size - 1 - i) = borderDist size i := by
  unfold borderDist
  omega

theorem rawW_flip_left {size i j : ℕ} (hi : i < size) :
    rawW size (size - 1 - i) j = rawW size i j := by
  unfold rawW
  rw [borderDist_flip hi]

theorem rawW_swap (size i j : ℕ) : rawW size j i = rawW size i j :=
  min_comm _ _

theorem tileWeightFull_congr {size i j k l : ℕ} (sigma : ℕ) (alpha eps : ℚ)
    (h : rawW size i j = rawW size k l) :
    tileWeightFull size sigma alpha eps i j =
      tileWeightFull size sigma alpha eps k l := by
  unfold tileWeightFull wClipped wPlateau wRescaled wClip1 wNorm rawWQ
  rw [h]

theorem tileWeight_center {size half : ℕ} (hs : size = 2 * half)
    (hh : 1 ≤ half) : tileWeight size half half = 1 := by
  have hc : half < size := by omega
  have h1 : wRescaled size 1 (1 / 1000000) half half = 1 :=
    (wRescaled_eq_one_iff hs hh hc hc (by norm_num)).mpr (rawW_center hs hh)
  unfold tileWeight tileWeightFull wClipped wPlateau
  rw [h1, if_neg (lt_irrefl 1), div_one, min_self,
    max_eq_right (by norm_num : (1 : ℚ) / 1000 ≤ 1), one_mul]
  have hr : roundHalfEven (1000 : ℚ) = 1000 := by
    unfold roundHalfEven
    rw [show (1000 : ℚ) = ((1000 : ℤ) : ℚ) by norm_num, Int.floor_intCast,
      round_intCast]
    norm_num
  rw [hr]
  norm_num

theorem rawW_flip_right {size i j : ℕ} (hj : j < size) :
    rawW size i (size - 1 - j) = rawW size i j := by
  rw [rawW_swap size (size - 1 - j) i, rawW_flip_left hj, rawW_swap]

/-- C4 (counterexample): prior to the alpha-plateau rescale the maximum
of the kernel field is NOT unique: at size 4 (half 2) the pre-plateau
value `wRescaled` equals its maximum 1 at both distinct cells (1,1) and
(2,2). -/
theorem C4_counterexample :
    wRescaled 4 1 (1 / 1000000) 1 1 = 1 ∧ wRescaled 4 1 (1 / 1000000) 2 2 = 1 ∧
    ((1 : ℕ), (1 : ℕ)) ≠ ((2 : ℕ), (2 : ℕ)) ∧
    (∀ i, i < 4 → ∀ j, j < 4 → wRescaled 4 1 (1 / 1000000) i j ≤ 1) := by
  have hs : (4 : ℕ) = 2 * 2 := by norm_num
  have hh : (1 : ℕ) ≤ 2 := by norm_num
  refine ⟨(wRescaled_eq_one_iff hs hh (by norm_num) (by norm_num)
      (by norm_num)).mpr (by decide),
    (wRescaled_eq_one_iff hs hh (by norm_num) (by norm_num)
      (by norm_num)).mpr (by decide),
    by decide, ?_⟩
  intro i hi j hj
  exact wRescaled_le_one hs hh hi hj (by norm_num)

/-- C4 (amended): for every even tile size `2*half ≥ 2` (with sigma = 1,
alpha = 1, eps = 1e-6), every kernel entry lies in `[1e-3, 1]`, the
center value is 1, prior to the alpha-plateau rescale the maximum is
attained exactly on the central 2×2 block (not at a unique cell), and
the kernel is invariant under horizontal mirroring, vertical mirroring
and transposition. -/
theorem C4_kernel_properties (half size i j : ℕ) (hs : size = 2 * half)
    (hh : 1 ≤ half) (hi : i < size) (hj : j < size) :
    (1 / 1000 ≤ tileWeight size i j ∧ tileWeight size i j ≤ 1) ∧
    tileWeight size half half = 1 ∧
    wRescaled size 1 (1 / 1000000) i j ≤ 1 ∧
    (wRescaled size 1 (1 / 1000000) i j = 1 ↔
      (i = half - 1 ∨ i = half) ∧ (j = half - 1 ∨ j = half)) ∧
    tileWeight size (size - 1 - i) j = tileWeight size i j ∧
    tileWeight size i (size - 1 - j) = tileWeight size i j ∧
    tileWeight size j i = tileWeight size i j := by
  refine ⟨tileWeightFull_bounds size 1 1 (1 / 1000000) i j,
    tileWeight_center hs hh,
    wRescaled_le_one hs hh hi hj (by norm_num), ?_, ?_, ?_, ?_⟩
  · rw [wRescaled_eq_one_iff hs hh hi hj (by norm_num)]
    exact rawW_eq_half_iff hs hh hi hj
  · exact tileWeightFull_congr 1 1 (1 / 1000000) (rawW_flip_left hi)
  · exact tileWeightFull_congr 1 1 (1 / 1000000) (rawW_flip_right hj)
  · exact tileWeightFull_congr 1 1 (1 / 1000000) (rawW_swap size i j)

/-- Witness for C4's amended theorem at size 4, half 2, cell (0,1). -/
theorem C4_kernel_properties_witness :
    ((4 : ℕ) = 2 * 2 ∧ (1 : ℕ) ≤ 2 ∧ (0 : ℕ) < 4 ∧ (1 : ℕ) < 4) ∧
    ((1 / 1000 ≤ tileWeight 4 0 1 ∧ tileWeight 4 0 1 ≤ 1) ∧
      tileWeight 4 2 2 = 1 ∧
      wRescaled 4 1 (1 / 1000000) 0 1 ≤ 1 ∧
      (wRescaled 4 1 (1 / 1000000) 0 1 = 1 ↔
        ((0 : ℕ) = 2 - 1 ∨ (0 : ℕ) = 2) ∧ ((1 : ℕ) = 2 - 1 ∨ (1 : ℕ) = 2)) ∧
      tileWeight 4 (4 - 1 - 0) 1 = tileWeight 4 0 1 ∧
      tileWeight 4 0 (4 - 1 - 1) = tileWeight 4 0 1 ∧
      tileWeight 4 1 0 = tileWeight 4 0 1) :=
  ⟨by norm_num,
    C4_kernel_properties 2 4 0 1 (by norm_num) (by norm_num) (by norm_num)
      (by norm_num)⟩

/-! ### The reconstruction accumulator -/

/-- Does rectangle `r` cover pixel `(p, q)`? -/
def coversB (r : Rect) (p q : ℕ) : Bool :=
  decide (r.x0 ≤ (p : ℤ) ∧ (p : ℤ) < r.x1 ∧ r.y0 ≤ (q : ℤ) ∧ (q : ℤ) < r.y1)

/-- `global_counter[p][q]` after the accumulation loop has processed
every planned tile: each covering tile adds the kernel entry at the
pixel's offset inside the tile
(`global_counter[x0:x1, y0:y1] += weighting`). -/
def accumWeightAt (P : List Rect) (T : ℕ) (p q : ℕ) : ℚ :=
  ((P.filter (fun r => coversB r p q)).map
    (fun r => tileWeight T ((p : ℤ) - r.x0).toNat ((q : ℤ) - r.y0).toNat)).sum

/-- `global_pred[p][q]` after accumulating every planned tile of a
constant prediction `v`: each covering tile adds `v` times the kernel
entry (`global_pred[x0:x1, y0:y1] += pred * weighting`). -/
def accumSumAt (P : List Rect) (T : ℕ) (v : ℚ) (p q : ℕ) : ℚ :=
  ((P.filter (fun r => coversB r p q)).map
    (fun r => v * tileWeight T ((p : ℤ) - r.x0).toNat ((q : ℤ) - r.y0).toNat)).sum

/-- The reconstructed probability at pixel `(p, q)` for a constant
per-tile prediction `v`: plan the tiles, accumulate them all, then
finalize. -/
def reconstructAt (h w T ov : ℕ) (v : ℚ) (p q : ℕ) : Option ℚ :=
  (getPositions h w T ov).bind
    (fun P => finalizePixel (accumSumAt P T v p q) (accumWeightAt P T p q))

theorem stepOf_ne_zero {T ov : ℕ} (hov : 1 ≤ ov) (hovT : ov ≤ T) :
    stepOf T ov ≠ 0 := by
  have h1 : 1 ≤ T / ov := (Nat.one_le_div_iff (by omega)).mpr hovT
  simp only [stepOf]
  omega

theorem tileWeight_pos (T a b : ℕ) : 0 < tileWeight T a b :=
  lt_of_lt_of_le (by norm_num) (tileWeightFull_bounds T 1 1 (1 / 1000000) a b).1

theorem sum_map_pos {l : List Rect} {g : Rect → ℚ} (hne : l ≠ [])
    (hpos : ∀ r ∈ l, 0 < g r) : 0 < (l.map g).sum := by
  cases l with
  | nil => simp at hne
  | cons a t =>
    simp only [List.map_cons, List.sum_cons]
    have h1 : 0 ≤ (t.map g).sum := by
      apply List.sum_nonneg
      intro x hx
      obtain ⟨r, hr, rfl⟩ := List.mem_map.mp hx
      exact le_of_lt (hpos r (List.mem_cons_of_mem a hr))
    have h2 : 0 < g a := hpos a (List.mem_cons_self a t)
    linarith

/-- C3 (counterexample): at a 2×2 constant image of value 1 with
tile_size 2 and overlap_factor 3 the step `int(2/3)` is 0, the planner
raises, and no probability map is produced at all. -/
theorem C3_counterexample :
    reconstructAt 2 2 2 3 1 0 0 = none ∧
      reconstructAt 2 2 2 3 1 0 0 ≠ some 1 := by
  have h : reconstructAt 2 2 2 3 1 0 0 = none := rfl
  exact ⟨h, by simp [h]⟩

/-- C3 (amended): for every even tile size `T ≥ 2`, every overlap factor
with `1 ≤ ov ≤ T` (so the planner step is nonzero), and image dimensions
at least `T`, accumulating every planned tile of a constant prediction
`v` weighted by the tile kernel and finalizing yields exactly `v` at
every pixel (over exact arithmetic). -/
theorem C3_reconstruction_identity (h w T ov : ℕ) (v : ℚ) (p q : ℕ)
    (hT2 : 2 ≤ T) (hTe : T % 2 = 0) (hov : 1 ≤ ov) (hovT : ov ≤ T)
    (hh : T ≤ h) (hw : T ≤ w) (hp : p < h) (hq : q < w) :
    reconstructAt h w T ov v p q = some v := by
  have hz : stepOf T ov ≠ 0 := stepOf_ne_zero hov hovT
  have hP : getPositions h w T ov =
      some (getPositionsList h w T (stepOf T ov)) := by
    simp [getPositions, hz]
  obtain ⟨r, hrP, hrc⟩ :=
    positions_cover hP p q hp hq
  have hmem : r ∈ (getPositionsList h w T (stepOf T ov)).filter
      (fun s => coversB s p q) := by
    refine List.mem_filter.mpr ⟨hrP, ?_⟩
    simp only [coversB, decide_eq_true_eq]
    exact hrc
  have hwpos : 0 < accumWeightAt (getPositionsList h w T (stepOf T ov)) T p q := by
    unfold accumWeightAt
    exact sum_map_pos (List.ne_nil_of_mem hmem)
      (fun s _ => tileWeight_pos T _ _)
  have hsum : accumSumAt (getPositionsList h w T (stepOf T ov)) T v p q =
      v * accumWeightAt (getPositionsList h w T (stepOf T ov)) T p q := by
    unfold accumSumAt accumWeightAt
    rw [List.sum_map_mul_left]
  unfold reconstructAt
  rw [hP, Option.some_bind]
  unfold finalizePixel
  rw [if_neg (ne_of_gt hwpos), hsum, mul_div_assoc,
    div_self (ne_of_gt hwpos), mul_one]

/-- Witness for C3's amended theorem: a 2×2 image, tile 2, overlap 1,
constant value 5/7, at pixel (1,1). -/
theorem C3_reconstruction_identity_witness :
    ((2 : ℕ) ≤ 2 ∧ (2 : ℕ) % 2 = 0 ∧ (1 : ℕ) ≤ 1 ∧ (1 : ℕ) ≤ 2 ∧
      (2 : ℕ) ≤ 2 ∧ (1 : ℕ) < 2) ∧
    reconstructAt 2 2 2 1 (5 / 7) 1 1 = some (5 / 7) :=
  ⟨by decide,
    C3_reconstruction_identity 2 2 2 1 (5 / 7) 1 1 (by decide) (by decide)
      (by decide) (by decide) (by decide) (by decide) (by decide) (by decide)⟩

/-! ### Fold partitioning: `InMemoryTrainDataset.update_fold_nb` -/

/-- `self.train_img_idx = [i for i in range(len(names)) if i % 5 != fold_nb]`
(5-fold cross-validation is hard coded). -/
def trainImgIdx (n : ℕ) (k : ℤ) : List ℕ :=
  (List.range n).filter (fun i => decide (¬((i : ℤ) % 5 = k)))

/-- `self.valid_img_idx = [i for i in range(len(names)) if i % 5 == fold_nb]`. -/
def validImgIdx (n : ℕ) (k : ℤ) : List ℕ :=
  (List.range n).filter (fun i => decide ((i : ℤ) % 5 = k))

/-- The fold-relevant state of `InMemoryTrainDataset`: the number of
training image names and the index partition last computed by
`update_fold_nb`. -/
structure FoldState where
  n : ℕ
  foldNb : ℤ
  trainIdx : List ℕ
  validIdx : List ℕ
deriving DecidableEq

/-- `update_fold_nb(fold_nb)`: recompute both index lists from the image
count and the new fold number (no validity check on `fold_nb`). -/
def updateFoldNb (s : FoldState) (k : ℤ) : FoldState :=
  { s with foldNb := k, trainIdx := trainImgIdx s.n k, validIdx := validImgIdx s.n k }

/-- C5: `update_fold_nb` realises the `i mod 5` fold rule: the train set
is exactly the indices with `i % 5 ≠ k`, the validation set exactly
those with `i % 5 = k`; the two are disjoint and their union is the full
index range; and switching to any fold `j` and back to `k` restores
exactly the partition for `k`. -/
theorem C5_fold_partition (s : FoldState) (k j : ℤ) :
    (∀ i, i ∈ (updateFoldNb s k).trainIdx ↔ i < s.n ∧ ¬((i : ℤ) % 5 = k)) ∧
    (∀ i, i ∈ (updateFoldNb s k).validIdx ↔ i < s.n ∧ (i : ℤ) % 5 = k) ∧
    (∀ i, ¬(i ∈ (updateFoldNb s k).trainIdx ∧ i ∈ (updateFoldNb s k).validIdx)) ∧
    (∀ i, i < s.n ↔
      (i ∈ (updateFoldNb s k).trainIdx ∨ i ∈ (updateFoldNb s k).validIdx)) ∧
    (updateFoldNb (updateFoldNb s j) k).trainIdx = (updateFoldNb s k).trainIdx ∧
    (updateFoldNb (updateFoldNb s j) k).validIdx = (updateFoldNb s k).validIdx := by
  refine ⟨?_, ?_, ?_, ?_, rfl, rfl⟩
  · intro i
    simp [updateFoldNb, trainImgIdx, List.mem_filter, List.mem_range]
  · intro i
    simp [updateFoldNb, validImgIdx, List.mem_filter, List.mem_range]
  · intro i
    simp only [updateFoldNb, trainImgIdx, validImgIdx, List.mem_filter,
      List.mem_range, decide_eq_true_eq]
    tauto
  · intro i
    simp only [updateFoldNb, trainImgIdx, validImgIdx, List.mem_filter,
      List.mem_range, decide_eq_true_eq]
    tauto

/-- C8 (counterexample): `update_fold_nb` performs no range check: at
fold number 7 (outside `[0, 5)`) it silently succeeds, producing an
empty validation set and a train set equal to the whole index range,
instead of failing with an InvalidArgument condition. -/
theorem C8_counterexample :
    updateFoldNb { n := 3, foldNb := 0, trainIdx := [], validIdx := [] } 7 =
      { n := 3, foldNb := 7, trainIdx := [0, 1, 2], validIdx := [] } := by
  decide

/-- C8 (amended): for every fold index `k` outside `[0, 5)` the fold
switch does not fail; it silently yields an empty validation list and a
train list equal to the full index range. -/
theorem C8_no_range_check (n : ℕ) (k : ℤ) (hk : k < 0 ∨ 5 ≤ k) :
    trainImgIdx n k = List.range n ∧ validImgIdx n k = [] := by
  have hmod : ∀ i : ℕ, ¬((i : ℤ) % 5 = k) := by
    intro i
    have h1 : 0 ≤ (i : ℤ) % 5 := Int.emod_nonneg _ (by norm_num)
    have h2 : (i : ℤ) % 5 < 5 := Int.emod_lt_of_pos _ (by norm_num)
    omega
  constructor
  · apply List.filter_eq_self.mpr
    intro a _
    simpa using hmod a
  · apply List.filter_eq_nil_iff.mpr
    intro a _
    simpa using hmod a

/-- Witness for C8's amended theorem at n = 3, k = 7. -/
theorem C8_no_range_check_witness :
    ((7 : ℤ) < 0 ∨ 5 ≤ (7 : ℤ)) ∧
      (trainImgIdx 3 7 = List.range 3 ∧ validImgIdx 3 7 = []) :=
  ⟨Or.inr (by norm_num), C8_no_range_check 3 7 (Or.inr (by norm_num))⟩

/-! ### The tile acceptance policy `accept_tile_policy` -/

/-- The four sampling modes of `InMemoryTrainDataset`. -/
inductive SamplingMode
  | centered
  | convhull
  | random
  | visible
deriving DecidableEq

/-- The per-image rasters read by `accept_tile_policy`: ground-truth
masks (`self.masks`), pseudo-label masks (`self.pseudo_masks`) and
convex hulls (`self.conv_hulls`), indexed by image number and then
pixel; a nonzero value is a positive pixel. -/
structure MaskStore where
  masks : ℕ → ℕ → ℕ → ℕ
  pseudoMasks : ℕ → ℕ → ℕ → ℕ
  convHulls : ℕ → ℕ → ℕ → ℕ

/-- `mask[x1:x2, y1:y2].sum()`. -/
def rectSum (m : ℕ → ℕ → ℕ) (x1 x2 y1 y2 : ℕ) : ℕ :=
  ∑ i ∈ Finset.Ico x1 x2, ∑ j ∈ Finset.Ico y1 y2, m i j

/-- The expression assigned to `condition` in the visible-mode branch:
`self.pseudo_masks[...]` for a pseudo tile, `self.masks[...]`
otherwise, summed over the rectangle and compared with `> 2000`. -/
def visibleCondition (st : MaskStore) (imageNb x1 x2 y1 y2 : ℕ)
    (isPseudo : Bool) : Bool :=
  if isPseudo then decide (2000 < rectSum (st.pseudoMasks imageNb) x1 x2 y1 y2)
  else decide (2000 < rectSum (st.masks imageNb) x1 x2 y1 y2)

/-- The expression actually tested by the `if` of the visible-mode
branch: always `self.masks[image_nb][x1:x2, y1:y2].sum() > 2000`,
regardless of `is_pseudo`. -/
def visibleTest (st : MaskStore) (imageNb x1 x2 y1 y2 : ℕ) : Bool :=
  decide (2000 < rectSum (st.masks imageNb) x1 x2 y1 y2)

/-- `accept_tile_policy(image_nb, x1, x2, y1, y2, is_pseudo)`: `thresh`
is `self.sampling_thresh`, `r` the `np.random.rand()` draw consumed by
the soft-rejection fallback (`should_keep > self.sampling_thresh`).
In the visible branch the source assigns `condition`
(= `visibleCondition`) but its `if` tests `visibleTest` instead. -/
def acceptTilePolicy (st : MaskStore) (mode : SamplingMode) (thresh : ℚ)
    (imageNb x1 x2 y1 y2 : ℕ) (isPseudo : Bool) (r : ℚ) : Bool :=
  if thresh = 0 then true
  else
    match mode with
    | SamplingMode.centered =>
        let condition : Bool :=
          if isPseudo then
            decide (st.pseudoMasks imageNb ((x1 + x2) / 2) ((y1 + y2) / 2) ≠ 0)
          else decide (st.masks imageNb ((x1 + x2) / 2) ((y1 + y2) / 2) ≠ 0)
        if condition then true else decide (thresh < r)
    | SamplingMode.convhull =>
        let condition : Bool :=
          if isPseudo then true
          else decide (st.convHulls imageNb ((x1 + x2) / 2) ((y1 + y2) / 2) ≠ 0)
        if condition then true else decide (thresh < r)
    | SamplingMode.visible =>
        if visibleTest st imageNb x1 x2 y1 y2 then true
        else decide (thresh < r)
    | SamplingMode.random => true

/-- An all-positive ground-truth mask store with empty pseudo masks. -/
def maskStoreOnes : MaskStore :=
  { masks := fun _ _ _ => 1, pseudoMasks := fun _ _ _ => 0,
    convHulls := fun _ _ _ => 0 }

theorem rectSum_ones (x1 x2 y1 y2 : ℕ) :
    rectSum (fun _ _ => 1) x1 x2 y1 y2 = (x2 - x1) * (y2 - y1) := by
  simp [rectSum, Finset.sum_const, Nat.card_Ico]

theorem rectSum_zeros (x1 x2 y1 y2 : ℕ) :
    rectSum (fun _ _ => 0) x1 x2 y1 y2 = 0 := by
  simp [rectSum]

/-- C6: in visible mode with a non-pseudo tile and sampling threshold 1,
a rectangle holding exactly 2000 positive pixels is rejected (the test
is strict `> 2000` and `np.random.rand() < 1` never triggers the soft
fallback), while a rectangle holding 2001 positive pixels is accepted. -/
theorem C6_visible_boundary (st : MaskStore) (imageNb x1 x2 y1 y2 : ℕ)
    (r : ℚ) (hr0 : 0 ≤ r) (hr1 : r < 1) :
    (rectSum (st.masks imageNb) x1 x2 y1 y2 = 2000 →
      acceptTilePolicy st SamplingMode.visible 1 imageNb x1 x2 y1 y2 false r
        = false) ∧
    (rectSum (st.masks imageNb) x1 x2 y1 y2 = 2001 →
      acceptTilePolicy st SamplingMode.visible 1 imageNb x1 x2 y1 y2 false r
        = true) := by
  constructor <;> intro hsum <;>
    simp only [acceptTilePolicy, visibleTest, hsum] <;> norm_num
  linarith

/-- Witness for C6 with an all-ones mask: the 1×2000 rectangle (count
2000) is rejected, the 1×2001 rectangle (count 2001) accepted, at
`r = 1/2`. -/
theorem C6_visible_boundary_witness :
    ((0 : ℚ) ≤ 1 / 2 ∧ (1 : ℚ) / 2 < 1) ∧
    acceptTilePolicy maskStoreOnes SamplingMode.visible 1 0 0 1 0 2000 false
      (1 / 2) = false ∧
    acceptTilePolicy maskStoreOnes SamplingMode.visible 1 0 0 1 0 2001 false
      (1 / 2) = true := by
  refine ⟨⟨by norm_num, by norm_num⟩, ?_, ?_⟩
  · exact (C6_visible_boundary maskStoreOnes 0 0 1 0 2000 (1 / 2)
      (by norm_num) (by norm_num)).1 (by simp [maskStoreOnes, rectSum_ones])
  · exact (C6_visible_boundary maskStoreOnes 0 0 1 0 2001 (1 / 2)
      (by norm_num) (by norm_num)).2 (by simp [maskStoreOnes, rectSum_ones])

/-- C9 (counterexample): for a pseudo tile the two visible-mode
expressions differ: with empty pseudo masks and an all-ones ground
truth mask over a 1×2001 rectangle, the assigned `condition` is false
while the tested expression is true. -/
theorem C9_counterexample :
    visibleCondition maskStoreOnes 0 0 1 0 2001 true = false ∧
    visibleTest maskStoreOnes 0 0 1 0 2001 = true := by
  constructor
  · simp [visibleCondition, maskStoreOnes, rectSum_zeros]
  · simp [visibleTest, maskStoreOnes, rectSum_ones]

/-- C9 (amended): for a non-pseudo tile (`is_pseudo = False`) the two
expressions of the visible-mode branch evaluate to the same truth
value; for a pseudo tile they read different mask arrays and can
differ. -/
theorem C9_visible_condition_agree (st : MaskStore)
    (imageNb x1 x2 y1 y2 : ℕ) :
    visibleCondition st imageNb x1 x2 y1 y2 false =
      visibleTest st imageNb x1 x2 y1 y2 := rfl

/-! ### The training tile proposal of `InMemoryTrainDataset.__getitem__` -/

/-- `self.before_crop_size = int(1.5 * self.train_tile_size)`. -/
def beforeCropSize (t : ℕ) : ℕ := 3 * t / 2

/-- One candidate rectangle of the rejection loop:
`x1 = np.random.randint(img_dim[0] - before_crop_size)`,
`x2 = x1 + before_crop_size`, and likewise for `y`; `rx`, `ry` are the
values the two `randint` draws return. -/
def proposeTile (b rx ry : ℕ) : Rect :=
  { x0 := (rx : ℤ), x1 := (rx : ℤ) + (b : ℤ),
    y0 := (ry : ℤ), y1 := (ry : ℤ) + (b : ℤ) }

/-- C7: whenever both image dimensions strictly exceed the oversized
crop side `int(1.5 * tile_size)`, every candidate rectangle the
rejection loop can propose (`randint(d - b)` draws are `< d - b`)
satisfies `0 ≤ x1 < x2 ≤ height` and `0 ≤ y1 < y2 ≤ width` with both
sides equal to the oversized crop side, so the crop always fits inside
the image. -/
theorem C7_proposal_in_bounds (hgt wdt t rx ry : ℕ) (ht : 1 ≤ t)
    (hht : beforeCropSize t < hgt) (hwt : beforeCropSize t < wdt)
    (hrx : rx < hgt - beforeCropSize t) (hry : ry < wdt - beforeCropSize t) :
    0 ≤ (proposeTile (beforeCropSize t) rx ry).x0 ∧
    (proposeTile (beforeCropSize t) rx ry).x0 <
      (proposeTile (beforeCropSize t) rx ry).x1 ∧
    (proposeTile (beforeCropSize t) rx ry).x1 ≤ (hgt : ℤ) ∧
    0 ≤ (proposeTile (beforeCropSize t) rx ry).y0 ∧
    (proposeTile (beforeCropSize t) rx ry).y0 <
      (proposeTile (beforeCropSize t) rx ry).y1 ∧
    (proposeTile (beforeCropSize t) rx ry).y1 ≤ (wdt : ℤ) ∧
    (proposeTile (beforeCropSize t) rx ry).x1 -
      (proposeTile (beforeCropSize t) rx ry).x0 = (beforeCropSize t : ℤ) ∧
    (proposeTile (beforeCropSize t) rx ry).y1 -
      (proposeTile (beforeCropSize t) rx ry).y0 = (beforeCropSize t : ℤ) := by
  have hb : 1 ≤ beforeCropSize t := by
    unfold beforeCropSize
    omega
  unfold proposeTile
  refine ⟨?_, ?_, ?_, ?_, ?_, ?_, ?_, ?_⟩ <;> dsimp only <;> omega

/-- Witness for C7 at a 100×100 image with tile size 4 (crop side 6)
and draws (0, 0). -/
theorem C7_proposal_in_bounds_witness :
    ((1 : ℕ) ≤ 4 ∧ beforeCropSize 4 < 100 ∧
      (0 : ℕ) < 100 - beforeCropSize 4) ∧
    (0 ≤ (proposeTile (beforeCropSize 4) 0 0).x0 ∧
      (proposeTile (beforeCropSize 4) 0 0).x0 <
        (proposeTile (beforeCropSize 4) 0 0).x1 ∧
      (proposeTile (beforeCropSize 4) 0 0).x1 ≤ (100 : ℤ) ∧
      0 ≤ (proposeTile (beforeCropSize 4) 0 0).y0 ∧
      (proposeTile (beforeCropSize 4) 0 0).y0 <
        (proposeTile (beforeCropSize 4) 0 0).y1 ∧
      (proposeTile (beforeCropSize 4) 0 0).y1 ≤ (100 : ℤ) ∧
      (proposeTile (beforeCropSize 4) 0 0).x1 -
        (proposeTile (beforeCropSize 4) 0 0).x0 = (beforeCropSize 4 : ℤ) ∧
      (proposeTile (beforeCropSize 4) 0 0).y1 -
        (proposeTile (beforeCropSize 4) 0 0).y0 = (beforeCropSize 4 : ℤ)) :=
  ⟨by decide,
    C7_proposal_in_bounds 100 100 4 0 0 (by decide) (by decide) (by decide)
      (by decide) (by decide)⟩
